import Mathlib

/-!
Verification of `src/opensustaintech/metadata_generation/generate_organisation_metadata.py`.

The script enriches organisation rows with LLM-inferred metadata.  We give a
shallow embedding of its data model and operations:

* JSON values (`JValue`) with Python dicts as insertion-ordered association
  lists (`Dict`);
* the disk cache (`Cache`) with `diskcache.Cache.get` / `.add` semantics
  (`add` is insert-if-absent);
* Python `str.replace` (`pyReplace`) and the cleanup chain of `_f`
  (`cleanOutput`);
* `json.loads` (`jsonLoads`) as a fueled, kernel-executable JSON parser, and
  `json.dump` (`jsonDumps`) as a serializer;
* the enrichment function `_f` (`f`), the row iteration loop (`processRows`),
  the top-level orchestration (`runScript`) and the CSV report
  (`mkCsvTable`).

External effects (the Mistral model call together with prompt rendering) are
abstracted as an oracle `LLM : String → LLMOutcome` indexed by the URL (the
prompt is rendered from the URL as its only template variable, so the URL
determines the prompt).  Python floats appearing in JSON are modelled as exact
decimals `m / 10^e`; this does not affect any property stated here.
-/

/-- JSON values as produced by `json.loads`.  Numbers are modelled as exact
decimals: `num m e` denotes `m / 10^e` (the digits as written). -/
inductive JValue where
  | null : JValue
  | bool (b : Bool) : JValue
  | num (m : Int) (e : Nat) : JValue
  | str (s : String) : JValue
  | arr (elems : List JValue) : JValue
  | obj (fields : List (String × JValue)) : JValue

/-- A Python dict with string keys, as an insertion-ordered association list. -/
abbrev Dict := List (String × JValue)

/-- `d.get(k)` for a Python dict: the value at the first matching key. -/
def dictGet (d : Dict) (k : String) : Option JValue :=
  (d.find? (fun p => decide (p.1 = k))).map (·.2)

/-- `k in d` for a Python dict. -/
def dictHasKey (d : Dict) (k : String) : Bool :=
  (dictGet d k).isSome

/-- `d[k] = v` for a Python dict: overwrite in place if the key exists
(keeping its position), otherwise append. -/
def dictSet (d : Dict) (k : String) (v : JValue) : Dict :=
  match d with
  | [] => [(k, v)]
  | (k', v') :: rest =>
    if k' = k then (k', v) :: rest else (k', v') :: dictSet rest k v

/-- Python's `x is None` applied to the result of `d.get(k)`: true when the
key is absent or its value is JSON `null` (Python `None`). -/
def pyIsNone (o : Option JValue) : Bool :=
  match o with
  | none => true
  | some JValue.null => true
  | some _ => false

/-- The disk cache: URL keys mapped to result dicts. -/
abbrev Cache := List (String × Dict)

/-- `diskcache.Cache.get(key)`: `None` (here `none`) on a miss. -/
def Cache.get (c : Cache) (k : String) : Option Dict :=
  (c.find? (fun p => decide (p.1 = k))).map (·.2)

/-- `diskcache.Cache.add(key, value)`: insert only if the key is absent; a
no-op when an entry already exists. -/
def Cache.add (c : Cache) (k : String) (v : Dict) : Cache :=
  match Cache.get c k with
  | some _ => c
  | none => c ++ [(k, v)]

/-- Auxiliary loop for `pyReplace`: replace every non-overlapping occurrence
of `p :: ps`, scanning left to right.  The fuel argument is instantiated with
the length of the list, which always suffices, and keeps the definition
kernel-executable. -/
def replaceAllAux (p : Char) (ps repl : List Char) : Nat → List Char → List Char
  | _, [] => []
  | 0, l => l
  | fuel + 1, c :: rest =>
    if (p :: ps).isPrefixOf (c :: rest) then
      repl ++ replaceAllAux p ps repl fuel (rest.drop ps.length)
    else
      c :: replaceAllAux p ps repl fuel rest

/-- Python `s.replace(pat, repl)`: replace all non-overlapping occurrences,
left to right.  (For the empty pattern, which the script never uses, we
return `s` unchanged.) -/
def pyReplace (s pat repl : String) : String :=
  match pat.data with
  | [] => s
  | p :: ps => String.mk (replaceAllAux p ps repl.data s.data.length s.data)

/-- The cleanup chain of `_f` (line 114):
`x.output.replace("\n", "").replace("```", "").replace("json{", "{")`. -/
def cleanOutput (s : String) : String :=
  pyReplace (pyReplace (pyReplace s "\n" "") "```" "") "json\x7b" "\x7b"

/-- Whitespace in the JSON grammar. -/
def isJsonWs (c : Char) : Bool :=
  c = ' ' || c = '\n' || c = '\t' || c = '\r'

/-- Skip leading JSON whitespace. -/
def skipWs : List Char → List Char
  | [] => []
  | c :: rest => if isJsonWs c then skipWs rest else c :: rest

/-- Value of a hexadecimal digit character. -/
def hexVal (c : Char) : Option Nat :=
  if '0' ≤ c ∧ c ≤ '9' then some (c.toNat - 48)
  else if 'a' ≤ c ∧ c ≤ 'f' then some (c.toNat - 87)
  else if 'A' ≤ c ∧ c ≤ 'F' then some (c.toNat - 55)
  else none

/-- Prepend a character to the first component of a string-parse result. -/
def consFst (c : Char) : Option (List Char × List Char) → Option (List Char × List Char)
  | some (cs, r) => some (c :: cs, r)
  | none => none

/-- Parse the body of a JSON string after the opening quote, decoding escape
sequences; returns the decoded characters and the input after the closing
quote.  Raw control characters are rejected, as in `json.loads` strict
mode. -/
def parseStrBody : List Char → Option (List Char × List Char)
  | [] => none
  | c :: cs =>
    if c = '"' then some ([], cs)
    else if c = '\\' then
      match cs with
      | [] => none
      | e :: r =>
        if e = '"' then consFst '"' (parseStrBody r)
        else if e = '\\' then consFst '\\' (parseStrBody r)
        else if e = '/' then consFst '/' (parseStrBody r)
        else if e = 'n' then consFst '\n' (parseStrBody r)
        else if e = 't' then consFst '\t' (parseStrBody r)
        else if e = 'r' then consFst '\r' (parseStrBody r)
        else if e = 'b' then consFst '\x08' (parseStrBody r)
        else if e = 'f' then consFst '\x0c' (parseStrBody r)
        else if e = 'u' then
          match r with
          | h1 :: h2 :: h3 :: h4 :: r2 =>
            match hexVal h1, hexVal h2, hexVal h3, hexVal h4 with
            | some a, some b, some c3, some d =>
              consFst (Char.ofNat (((a * 16 + b) * 16 + c3) * 16 + d)) (parseStrBody r2)
            | _, _, _, _ => none
          | _ => none
        else none
    else if c.toNat < 32 then none
    else consFst c (parseStrBody cs)

/-- Split off the leading run of decimal digit characters. -/
def takeDigits : List Char → List Char × List Char
  | [] => ([], [])
  | c :: rest =>
    if c.isDigit then
      let (ds, r) := takeDigits rest
      (c :: ds, r)
    else ([], c :: rest)

/-- Numeric value of a list of digit characters (most significant first). -/
def digitsVal (ds : List Char) : Nat :=
  ds.foldl (fun a c => a * 10 + (c.toNat - 48)) 0

/-- Parse an unsigned JSON number: returns the scaled mantissa, the number of
fractional digits, and the rest of the input. -/
def parseNumCore (l : List Char) : Option (Nat × Nat × List Char) :=
  let (ip, r1) := takeDigits l
  if ip.isEmpty then none
  else
    match r1 with
    | [] => some (digitsVal ip, 0, [])
    | c :: r2 =>
      if c = '.' then
        let (fp, r3) := takeDigits r2
        if fp.isEmpty then none
        else some (digitsVal ip * 10 ^ fp.length + digitsVal fp, fp.length, r3)
      else some (digitsVal ip, 0, c :: r2)

/-- Parse a JSON number with optional leading minus sign. -/
def parseNum (l : List Char) : Option (JValue × List Char) :=
  match l with
  | [] => none
  | c :: r =>
    if c = '-' then (parseNumCore r).map (fun p => (JValue.num (-(p.1 : Int)) p.2.1, p.2.2))
    else (parseNumCore (c :: r)).map (fun p => (JValue.num (p.1 : Int) p.2.1, p.2.2))

/-- Parsing mode: a single value, the members of an object after `{`, or the
elements of an array after `[` (both in the non-empty case). -/
inductive PMode where
  | val : PMode
  | members : PMode
  | elems : PMode

/-- Match an expected literal character sequence, returning the rest. -/
def expectChars : List Char → List Char → Option (List Char)
  | [], l => some l
  | _ :: _, [] => none
  | e :: es, c :: l => if c = e then expectChars es l else none

/-- The JSON parser, as one fueled function so that it is kernel-executable.
In `members` mode the parsed fields are returned as `JValue.obj`, in `elems`
mode the parsed elements as `JValue.arr`.  Each fuel step consumes at least
one input character, so fuel `length + 1` always suffices. -/
def parseJ : Nat → PMode → List Char → Option (JValue × List Char)
  | 0, _, _ => none
  | fuel + 1, PMode.val, l =>
    match l with
    | [] => none
    | c :: r =>
      if c = '"' then
        (parseStrBody r).map (fun p => (JValue.str (String.mk p.1), p.2))
      else if c = '\x7b' then
        match skipWs r with
        | [] => none
        | c2 :: r2 =>
          if c2 = '\x7d' then some (JValue.obj [], r2)
          else parseJ fuel PMode.members (c2 :: r2)
      else if c = '[' then
        match skipWs r with
        | [] => none
        | c2 :: r2 =>
          if c2 = ']' then some (JValue.arr [], r2)
          else parseJ fuel PMode.elems (c2 :: r2)
      else if c = 'n' then
        (expectChars ['u', 'l', 'l'] r).map (fun r2 => (JValue.null, r2))
      else if c = 't' then
        (expectChars ['r', 'u', 'e'] r).map (fun r2 => (JValue.bool true, r2))
      else if c = 'f' then
        (expectChars ['a', 'l', 's', 'e'] r).map (fun r2 => (JValue.bool false, r2))
      else parseNum (c :: r)
  | fuel + 1, PMode.members, l =>
    match l with
    | [] => none
    | c :: r =>
      if c = '"' then
        match parseStrBody r with
        | none => none
        | some (kcs, r1) =>
          match skipWs r1 with
          | [] => none
          | c2 :: r2 =>
            if c2 = ':' then
              match parseJ fuel PMode.val (skipWs r2) with
              | none => none
              | some (v, r3) =>
                match skipWs r3 with
                | [] => none
                | c4 :: r4 =>
                  if c4 = ',' then
                    match parseJ fuel PMode.members (skipWs r4) with
                    | some (JValue.obj fs, r5) =>
                      some (JValue.obj ((String.mk kcs, v) :: fs), r5)
                    | _ => none
                  else if c4 = '\x7d' then some (JValue.obj [(String.mk kcs, v)], r4)
                  else none
            else none
      else none
  | fuel + 1, PMode.elems, l =>
    match parseJ fuel PMode.val l with
    | none => none
    | some (v, r1) =>
      match skipWs r1 with
      | [] => none
      | c2 :: r2 =>
        if c2 = ',' then
          match parseJ fuel PMode.elems (skipWs r2) with
          | some (JValue.arr vs, r3) => some (JValue.arr (v :: vs), r3)
          | _ => none
        else if c2 = ']' then some (JValue.arr [v], r2)
        else none

/-- `json.loads`: parse a complete JSON document (a single value surrounded
by optional whitespace); `none` models a raised `JSONDecodeError`. -/
def jsonLoads (s : String) : Option JValue :=
  match parseJ (s.data.length + 1) PMode.val (skipWs s.data) with
  | some (v, rest) => if skipWs rest = [] then some v else none
  | none => none

/-- Outcome of rendering the prompt and calling the model for a URL:
either the raw response text, a `ModelHTTPError` with its status code and
error text (`str(e)`), or any other exception with its text. -/
inductive LLMOutcome where
  | success (text : String) : LLMOutcome
  | httpError (statusCode : Nat) (msg : String) : LLMOutcome
  | otherError (msg : String) : LLMOutcome

/-- The external model as an oracle.  The prompt is rendered from the URL as
its only template variable, so the oracle is indexed by the URL. -/
abbrev LLM := String → LLMOutcome

/-- Result of one invocation of `_f`: either the returned dict, or an
uncaught exception that aborts the whole run (`out["url"] = url` raises
`TypeError` when `json.loads` returned a non-dict, since that line is outside
the `try` block). -/
inductive FRes where
  | ok (d : Dict) : FRes
  | crash (msg : String) : FRes

/-- Observable outcome of one invocation of `_f`: its result, the cache
afterwards, whether the external model was called, and whether a
`warnings.warn` was emitted. -/
structure FOutput where
  res : FRes
  cache : Cache
  called : Bool
  warned : Bool

/-- Stand-in for the text of the `json.JSONDecodeError` raised on a parse
failure (its exact wording is irrelevant to every property below). -/
def jsonDecodeErrMsg : String := "JSONDecodeError"

/-- The cache-hit test of `_f` (line 106): `c and (c.get("exception") is
None)` — the entry must be truthy (non-empty) and its `exception` lookup must
give `None`. -/
def cacheHit (cache : Cache) (url : String) : Bool :=
  match Cache.get cache url with
  | some c => !c.isEmpty && pyIsNone (dictGet c "exception")
  | none => false

/-- The body of `_f` after a cache miss (lines 108-124): call the model,
clean and parse the response, degrade exceptions to an `exception` dict,
attach the URL and insert the result with `cache.add`. -/
def fCompute (llm : LLM) (cache : Cache) (url : String) : FOutput :=
  match llm url with
  | LLMOutcome.success text =>
    match jsonLoads (cleanOutput text) with
    | some (JValue.obj fields) =>
      let out := dictSet fields "url" (JValue.str url)
      ⟨FRes.ok out, Cache.add cache url out, true, false⟩
    | some _ => ⟨FRes.crash "TypeError", cache, true, false⟩
    | none =>
      let out := dictSet [("exception", JValue.str jsonDecodeErrMsg)] "url" (JValue.str url)
      ⟨FRes.ok out, Cache.add cache url out, true, false⟩
  | LLMOutcome.httpError sc msg =>
    let out := dictSet [("exception", JValue.str msg)] "url" (JValue.str url)
    ⟨FRes.ok out, Cache.add cache url out, true, sc = 401 || sc = 403⟩
  | LLMOutcome.otherError msg =>
    let out := dictSet [("exception", JValue.str msg)] "url" (JValue.str url)
    ⟨FRes.ok out, Cache.add cache url out, true, false⟩

/-- The enrichment function `_f` (lines 104-124). -/
def f (llm : LLM) (cache : Cache) (url : String) : FOutput :=
  match Cache.get cache url with
  | some c =>
    if !c.isEmpty && pyIsNone (dictGet c "exception") then
      ⟨FRes.ok c, cache, false, false⟩
    else fCompute llm cache url
  | none => fCompute llm cache url

/-- Python `s.startswith("https://")`. -/
def startsWithHttps (s : String) : Bool :=
  "https://".data.isPrefixOf s.data

/-- Observable outcome of the row-iteration loop: the collected result list
`x_out`, the final cache, and the URLs for which the external model was
actually invoked (in order). -/
structure RunOut where
  results : List Dict
  cache : Cache
  llmCalls : List String

/-- The row iteration (lines 130-134): each row's `organization_website`
cell, modelled as `some s` for a string cell and `none` for a non-string
cell (e.g. NaN).  Only string cells starting with `https://` are passed to
`_f`; a crash of `_f` aborts the whole loop (`none`). -/
def processRows (llm : LLM) : Cache → List (Option String) → Option RunOut
  | cache, [] => some ⟨[], cache, []⟩
  | cache, cell :: rest =>
    match cell with
    | some s =>
      if startsWithHttps s then
        let out := f llm cache s
        match out.res with
        | FRes.ok d =>
          (processRows llm out.cache rest).map
            (fun o => ⟨d :: o.results, o.cache, (if out.called then [s] else []) ++ o.llmCalls⟩)
        | FRes.crash _ => none
      else processRows llm cache rest
    | none => processRows llm cache rest

/-- The process environment (after `load_dotenv`): variable names mapped to
values. -/
abbrev Env := List (String × String)

/-- Look up an environment variable. -/
def envGet (e : Env) (k : String) : Option String :=
  (e.find? (fun p => decide (p.1 = k))).map (·.2)

/-- The `Settings` model (lines 44-49): `MISTRAL_API_KEY` is required, the
other fields have defaults. -/
structure Settings where
  MISTRAL_API_KEY : String
  MISTRAL_MODEL : String
  DISK_CACHE_DIRECTORY : String
  INPUT_FOLDER : String
  OUTPUT_FOLDER : String

/-- `Settings()` via `pydantic_settings.BaseSettings` (line 81): raises a
validation error (`none`) when the required `MISTRAL_API_KEY` is absent from
the environment; otherwise fills the remaining fields from the environment or
their defaults. -/
def loadSettings (env : Env) : Option Settings :=
  match envGet env "MISTRAL_API_KEY" with
  | none => none
  | some key =>
    some ⟨key,
      (envGet env "MISTRAL_MODEL").getD "mistral-medium",
      (envGet env "DISK_CACHE_DIRECTORY").getD ".data",
      (envGet env "INPUT_FOLDER").getD ".data/inputs",
      (envGet env "OUTPUT_FOLDER").getD ".data/outputs"⟩

/-- Observable outcome of running the whole script up to the result list:
final outcome, whether the input download step was reached, and the URLs for
which the model was invoked. -/
structure ScriptRun where
  outcome : Except String RunOut
  downloadAttempted : Bool
  llmCalls : List String

/-- The top-level flow of the script (lines 80-134): settings are loaded
first (line 81) and a validation error aborts before the input download
(line 94) and before the row iteration (lines 130-134); afterwards the rows
are processed sequentially.  The spreadsheet contents are passed in as the
list of `organization_website` cells. -/
def runScript (env : Env) (llm : LLM) (cache : Cache) (rows : List (Option String)) :
    ScriptRun :=
  match loadSettings env with
  | none => ⟨Except.error "validation error: MISTRAL_API_KEY missing", false, []⟩
  | some _ =>
    match processRows llm cache rows with
    | none => ⟨Except.error "uncaught exception while iterating rows", true, []⟩
    | some out => ⟨Except.ok out, true, out.llmCalls⟩

/-- One input spreadsheet row, restricted to the three columns the report
uses; each cell is `none` when missing/non-string (NaN). -/
structure OrgRow where
  organization_website : Option String
  form_of_organization : Option String
  location_country : Option String

/-- One row of the final report frame after column selection: the six
selected columns plus the row label (pandas writes the index to the CSV by
default).  Cells are `none` where the underlying frame holds NaN. -/
structure CsvRow where
  idx : Nat
  urlV : Option JValue
  confidenceV : Option JValue
  manualTypeV : Option String
  typeV : Option JValue
  manualLocationV : Option String
  locationV : Option JValue

/-- Sort key of `sort_values("Confidence", ascending=False)`: the numeric
confidence, with `⊥` for a missing (NaN) value, which pandas places last. -/
def rowConf (r : CsvRow) : WithBot ℚ :=
  match r.confidenceV with
  | some (JValue.num m e) => ((m : ℚ) / (10 : ℚ) ^ e : ℚ)
  | _ => ⊥

/-- Does a result dict's `url` value match an input row's
`organization_website` (the merge key)?  A missing url (NaN) matches
nothing. -/
def urlMatches (d : Dict) (o : OrgRow) : Bool :=
  match dictGet d "url" with
  | some (JValue.str u) => o.organization_website = some u
  | _ => false

/-- Build one report row from a result dict and (optionally) a matching
input row. -/
def mkRow (i : Nat) (d : Dict) (o : Option OrgRow) : CsvRow :=
  ⟨i, dictGet d "url", dictGet d "Confidence",
    o.bind (·.form_of_organization), dictGet d "Type",
    o.bind (·.location_country), dictGet d "Location"⟩

/-- The left join of `merge(..., how="left", on="url")`: every result dict
appears once per matching input row, or once with nulls when nothing
matches. -/
def joinRows (results : List Dict) (orgs : List OrgRow) : List (Dict × Option OrgRow) :=
  results.flatMap (fun d =>
    match orgs.filter (urlMatches d) with
    | [] => [(d, none)]
    | ms => ms.map (fun o => (d, some o)))

/-- Insert a row into a list sorted by descending confidence (missing last). -/
def insertRow (x : CsvRow) : List CsvRow → List CsvRow
  | [] => [x]
  | y :: ys => if rowConf y ≤ rowConf x then x :: y :: ys else y :: insertRow x ys

/-- `sort_values("Confidence", ascending=False)`: sort by descending
confidence with NaN (missing) values last (`na_position="last"`, the pandas
default). -/
def sortRows : List CsvRow → List CsvRow
  | [] => []
  | x :: xs => insertRow x (sortRows xs)

/-- The six selected columns, in order (line 164). -/
def csvColumns : List String :=
  ["url", "Confidence", "manual_Type", "Type", "manual_Location", "Location"]

/-- The written CSV, at the level of its header and its (sorted) rows. -/
structure CsvTable where
  headerCells : List String
  rows : List CsvRow

/-- Lines 146-165: merge the results with the manually curated columns,
select the six report columns, sort by descending confidence and write the
CSV.  `to_csv` is called without `index=False`, so pandas prepends the row
index as an unnamed first column to the header and every data row. -/
def mkCsvTable (results : List Dict) (orgs : List OrgRow) : CsvTable :=
  ⟨"" :: csvColumns,
    sortRows ((joinRows results orgs).enum.map (fun p => mkRow p.1 p.2.1 p.2.2))⟩

/-- Decimal digit characters of `n`, most significant first (`"0"` for 0). -/
def natDigitsChars (n : Nat) : List Char :=
  if n = 0 then ['0'] else (Nat.digits 10 n).reverse.map Nat.digitChar

/-- The fractional digits of a scaled decimal: `k` printed with exactly `e`
digits (left-padded with zeros). -/
def fracChars (k e : Nat) : List Char :=
  List.replicate (e - (natDigitsChars k).length) '0' ++ natDigitsChars k

/-- Serialize the non-negative decimal `n / 10^e`. -/
def serNumNat (n e : Nat) : List Char :=
  if e = 0 then natDigitsChars n
  else natDigitsChars (n / 10 ^ e) ++ '.' :: fracChars (n % 10 ^ e) e

/-- Serialize the decimal `m / 10^e`. -/
def serNum (m : Int) (e : Nat) : List Char :=
  (if m < 0 then ['-'] else []) ++ serNumNat m.natAbs e

/-- Lower-case hexadecimal digit character. -/
def hexDigitChar (n : Nat) : Char :=
  if n < 10 then Char.ofNat (48 + n) else Char.ofNat (87 + n)

/-- JSON escape for one character inside a string literal, as emitted by
`json.dump`: the short escapes for quote, backslash and the common control
characters, `\u00XX` for the remaining control characters, and the character
itself otherwise. -/
def escChar (c : Char) : List Char :=
  if c = '"' then ['\\', '"']
  else if c = '\\' then ['\\', '\\']
  else if c = '\n' then ['\\', 'n']
  else if c = '\t' then ['\\', 't']
  else if c = '\r' then ['\\', 'r']
  else if c = '\x08' then ['\\', 'b']
  else if c = '\x0c' then ['\\', 'f']
  else if c.toNat < 32 then
    ['\\', 'u', '0', '0', hexDigitChar (c.toNat / 16), hexDigitChar (c.toNat % 16)]
  else [c]

/-- JSON escaping of a whole string body. -/
def escChars : List Char → List Char
  | [] => []
  | c :: cs => escChar c ++ escChars cs

mutual

/-- Serialize a JSON value as `json.dump` does (default separators `", "`
and `": "`).  `ensure_ascii` escaping of non-ASCII characters is not
modelled; it does not change the value a reader decodes. -/
def serV : JValue → List Char
  | JValue.null => ['n', 'u', 'l', 'l']
  | JValue.bool true => ['t', 'r', 'u', 'e']
  | JValue.bool false => ['f', 'a', 'l', 's', 'e']
  | JValue.num m e => serNum m e
  | JValue.str s => '"' :: escChars s.data ++ ['"']
  | JValue.arr [] => ['[', ']']
  | JValue.arr (v :: vs) => '[' :: serV v ++ serElems vs ++ [']']
  | JValue.obj [] => ['\x7b', '\x7d']
  | JValue.obj ((k, v) :: fs) => '\x7b' :: serKV k v ++ serFields fs ++ ['\x7d']

/-- Serialize one `"key": value` member. -/
def serKV (k : String) (v : JValue) : List Char :=
  '"' :: escChars k.data ++ '"' :: ':' :: ' ' :: serV v

/-- Serialize the remaining members of an object, each preceded by `", "`. -/
def serFields : List (String × JValue) → List Char
  | [] => []
  | (k, v) :: fs => ',' :: ' ' :: serKV k v ++ serFields fs

/-- Serialize the remaining elements of an array, each preceded by `", "`. -/
def serElems : List JValue → List Char
  | [] => []
  | v :: vs => ',' :: ' ' :: serV v ++ serElems vs

end

/-- `json.dump(x_out, f)`: the file contents written for the result list. -/
def jsonDumps (xs : List Dict) : String :=
  String.mk (serV (JValue.arr (xs.map JValue.obj)))

/-- Does the input start with a decimal digit? -/
def headDigit : List Char → Bool
  | [] => false
  | c :: _ => c.isDigit

/-- Does the input start with a dot? -/
def headIsDot : List Char → Bool
  | [] => false
  | c :: _ => c = '.'

mutual

/-- Node count of a JSON value, used as a fuel bound for the parser. -/
def jsizeV : JValue → Nat
  | JValue.null => 1
  | JValue.bool _ => 1
  | JValue.num _ _ => 1
  | JValue.str _ => 1
  | JValue.arr vs => 1 + jsizeElems vs
  | JValue.obj fs => 1 + jsizeFields fs

/-- Node count of object members. -/
def jsizeFields : List (String × JValue) → Nat
  | [] => 0
  | (_, v) :: fs => 1 + jsizeV v + jsizeFields fs

/-- Node count of array elements. -/
def jsizeElems : List JValue → Nat
  | [] => 0
  | v :: vs => 1 + jsizeV v + jsizeElems vs

end

/-- The continuations a serialized value can be followed by inside a
serialized document: nothing, or a separator/closer. -/
def SepOk : List Char → Prop
  | [] => True
  | c :: _ => c = ',' ∨ c = '\x7d' ∨ c = ']'

/-- Cache well-formedness: every stored entry carries its `url` key.  This is
an invariant of the script: entries are only ever written by `_f`, which
attaches the URL to every result before inserting it. -/
def cacheWF (c : Cache) : Prop := ∀ p ∈ c, dictHasKey p.2 "url" = true

/-- Concrete oracle whose response is the empty JSON object. -/
def llmEmptyObj : LLM := fun _ => LLMOutcome.success "\x7b\x7d"

/-- Concrete oracle whose response is a JSON object with a null `exception`
member. -/
def llmNullExc : LLM := fun _ => LLMOutcome.success "\x7b\"exception\": null\x7d"

/-- Concrete oracle raising an HTTP 403 transport error. -/
def llm403 : LLM := fun _ => LLMOutcome.httpError 403 "forbidden"

/-- The example URL of the specification. -/
def exUrl : String := "https://example.org"

/-- The raw model response text of the worked example. -/
def exampleRaw : String :=
  "```json\x7b\"Type\": \"Non-profit\", \"Location\": \x7b\"Country\": \"US\"\x7d, \"Confidence\": 0.91\x7d```"

/-- The enrichment result of the worked example. -/
def exampleParsed : Dict :=
  [("Type", JValue.str "Non-profit"),
   ("Location", JValue.obj [("Country", JValue.str "US")]),
   ("Confidence", JValue.num 91 2),
   ("url", JValue.str exUrl)]

/-- A cached failure entry, as a previous failed run would have written it. -/
def excBoomDict : Dict := [("exception", JValue.str "boom"), ("url", JValue.str exUrl)]

/-- A cache holding a stored failure for the example URL. -/
def cacheWithFailure : Cache := [(exUrl, excBoomDict)]

/-- The run outcome of processing the single example row with `llmEmptyObj`
on an empty cache. -/
def c8out : RunOut :=
  ⟨[[("url", JValue.str exUrl)]], [(exUrl, [("url", JValue.str exUrl)])], [exUrl]⟩

/-! ### Round-trip of the JSON serializer and parser -/

theorem skipWs_cons_not_ws (c : Char) (l : List Char) (h : isJsonWs c = false) :
    skipWs (c :: l) = c :: l := by
  simp [skipWs, h]

theorem hexVal_hexDigitChar (k : Nat) (hk : k < 16) : hexVal (hexDigitChar k) = some k := by
  interval_cases k <;> decide

theorem parse_escChar (c : Char) (l : List Char) :
    parseStrBody (escChar c ++ l) = consFst c (parseStrBody l) := by
  simp only [escChar]
  split_ifs with h1 h2 h3 h4 h5 h6 h7 h8
  · subst h1; rw [parseStrBody.eq_def]; simp +decide
  · subst h2; rw [parseStrBody.eq_def]; simp +decide
  · subst h3; rw [parseStrBody.eq_def]; simp +decide
  · subst h4; rw [parseStrBody.eq_def]; simp +decide
  · subst h5; rw [parseStrBody.eq_def]; simp +decide
  · subst h6; rw [parseStrBody.eq_def]; simp +decide
  · subst h7; rw [parseStrBody.eq_def]; simp +decide
  · rw [parseStrBody.eq_def]
    simp +decide [hexVal_hexDigitChar (c.toNat / 16) (by omega : c.toNat / 16 < 16),
      hexVal_hexDigitChar (c.toNat % 16) (by omega : c.toNat % 16 < 16)]
    have hx : ∀ X, X = c.toNat → consFst (Char.ofNat X) (parseStrBody l) = consFst c (parseStrBody l) := by
      intro X h
      rw [h, Char.ofNat_toNat]
    apply hx
    simp only [show ('0' : Char).toNat = 48 from by decide]
    omega
  · rw [parseStrBody.eq_def]
    simp [h1, h2, h8]

theorem parse_escChars (s : List Char) (l : List Char) :
    parseStrBody (escChars s ++ '"' :: l) = some (s, l) := by
  induction s with
  | nil =>
    rw [escChars, List.nil_append, parseStrBody.eq_def]
    simp
  | cons c cs ih =>
    rw [escChars, List.append_assoc, parse_escChar, ih]
    rfl

theorem digitChar_isDigit (d : Nat) (hd : d < 10) : (Nat.digitChar d).isDigit = true := by
  interval_cases d <;> decide

theorem digitChar_val (d : Nat) (hd : d < 10) : (Nat.digitChar d).toNat - 48 = d := by
  interval_cases d <;> decide

theorem natDigitsChars_digit (n : Nat) : ∀ c ∈ natDigitsChars n, c.isDigit = true := by
  intro c hc
  by_cases h : n = 0
  · rw [natDigitsChars, if_pos h] at hc
    simp at hc
    subst hc
    decide
  · rw [natDigitsChars, if_neg h] at hc
    simp only [List.mem_map, List.mem_reverse] at hc
    obtain ⟨d, hd, rfl⟩ := hc
    exact digitChar_isDigit d (Nat.digits_lt_base (by norm_num) hd)

theorem natDigitsChars_ne_nil (n : Nat) : natDigitsChars n ≠ [] := by
  by_cases h : n = 0
  · rw [natDigitsChars, if_pos h]
    simp
  · rw [natDigitsChars, if_neg h]
    simp [Nat.digits_ne_nil_iff_ne_zero, h]

theorem takeDigits_split (ds l : List Char) (hds : ∀ c ∈ ds, c.isDigit = true)
    (hl : headDigit l = false) : takeDigits (ds ++ l) = (ds, l) := by
  induction ds with
  | nil =>
    cases l with
    | nil => rfl
    | cons c r =>
      simp only [headDigit] at hl
      simp [takeDigits, hl]
  | cons d ds ih =>
    have hd : d.isDigit = true := hds d (by simp)
    simp only [List.cons_append, takeDigits, hd, if_true, List.append_eq]
    rw [ih (fun c hc => hds c (by simp [hc]))]

theorem digitsVal_zeros (z : Nat) (ds : List Char) :
    digitsVal (List.replicate z '0' ++ ds) = digitsVal ds := by
  induction z with
  | zero => simp
  | succ z ih =>
    rw [List.replicate_succ, List.cons_append]
    simpa [digitsVal] using ih

theorem foldl_digitChar (L : List Nat) (hL : ∀ d ∈ L, d < 10) (a : Nat) :
    List.foldl (fun a c => a * 10 + (c.toNat - 48)) a (L.map Nat.digitChar) =
    List.foldl (fun a d => a * 10 + d) a L := by
  induction L generalizing a with
  | nil => rfl
  | cons d L ih =>
    simp only [List.map_cons, List.foldl_cons]
    rw [digitChar_val d (hL d (by simp)), ih (fun x hx => hL x (by simp [hx]))]

theorem foldl_rev_ofDigits (L : List Nat) (a : Nat) :
    List.foldl (fun a d => a * 10 + d) a L.reverse = a * 10 ^ L.length + Nat.ofDigits 10 L := by
  induction L generalizing a with
  | nil => simp
  | cons d L ih =>
    rw [List.reverse_cons, List.foldl_append, ih]
    simp only [List.foldl_cons, List.foldl_nil, Nat.ofDigits_cons, List.length_cons]
    ring

theorem digitsVal_natDigitsChars (n : Nat) : digitsVal (natDigitsChars n) = n := by
  by_cases h : n = 0
  · subst h
    decide
  · rw [natDigitsChars, if_neg h, digitsVal,
      foldl_digitChar ((Nat.digits 10 n).reverse)
        (fun d hd => Nat.digits_lt_base (by norm_num) (List.mem_reverse.mp hd)) 0,
      foldl_rev_ofDigits]
    simp [Nat.ofDigits_digits]

theorem natDigitsChars_len_le (k e : Nat) (he : 1 ≤ e) (hk : k < 10 ^ e) :
    (natDigitsChars k).length ≤ e := by
  by_cases h : k = 0
  · rw [natDigitsChars, if_pos h]
    simpa using he
  · rw [natDigitsChars, if_neg h]
    simp only [List.length_map, List.length_reverse]
    rw [Nat.digits_len 10 k (by norm_num) h]
    have := Nat.log_lt_of_lt_pow h hk
    omega

theorem fracChars_digit (k e : Nat) : ∀ c ∈ fracChars k e, c.isDigit = true := by
  intro c hc
  rw [fracChars] at hc
  rcases List.mem_append.mp hc with h | h
  · rw [List.eq_of_mem_replicate h]
    decide
  · exact natDigitsChars_digit k c h

theorem fracChars_length (k e : Nat) (he : 1 ≤ e) (hk : k < 10 ^ e) :
    (fracChars k e).length = e := by
  rw [fracChars]
  have := natDigitsChars_len_le k e he hk
  simp only [List.length_append, List.length_replicate]
  omega

theorem digitsVal_fracChars (k e : Nat) : digitsVal (fracChars k e) = k := by
  rw [fracChars, digitsVal_zeros, digitsVal_natDigitsChars]

theorem fracChars_ne_nil (k e : Nat) : fracChars k e ≠ [] := by
  rw [fracChars]
  intro h
  rcases List.append_eq_nil.mp h with ⟨-, h2⟩
  exact natDigitsChars_ne_nil k h2

theorem parseNumCore_ser (n e : Nat) (l : List Char)
    (hd : headDigit l = false) (hdot : headIsDot l = false) :
    parseNumCore (serNumNat n e ++ l) = some (n, e, l) := by
  by_cases he : e = 0
  · subst he
    rw [serNumNat, if_pos rfl, parseNumCore]
    rw [takeDigits_split (natDigitsChars n) l (natDigitsChars_digit n) hd]
    simp only [List.isEmpty_eq_true, natDigitsChars_ne_nil n, if_false]
    cases l with
    | nil => simp [digitsVal_natDigitsChars]
    | cons c r =>
      simp only [headIsDot, decide_eq_false_iff_not] at hdot
      simp [hdot, digitsVal_natDigitsChars]
  · have he1 : 1 ≤ e := by omega
    rw [serNumNat, if_neg he, parseNumCore, List.append_assoc, List.cons_append]
    rw [takeDigits_split (natDigitsChars (n / 10 ^ e)) _ (natDigitsChars_digit _) (by rfl)]
    simp only [List.isEmpty_eq_true, natDigitsChars_ne_nil _, if_false, if_pos rfl]
    rw [takeDigits_split (fracChars (n % 10 ^ e) e) l (fracChars_digit _ _) hd]
    simp only [List.isEmpty_eq_true, fracChars_ne_nil _ _, if_false]
    rw [digitsVal_natDigitsChars, digitsVal_fracChars,
      fracChars_length (n % 10 ^ e) e he1 (Nat.mod_lt n (by positivity))]
    have hv : n / 10 ^ e * 10 ^ e + n % 10 ^ e = n := by
      calc n / 10 ^ e * 10 ^ e + n % 10 ^ e
          = 10 ^ e * (n / 10 ^ e) + n % 10 ^ e := by ring
        _ = n := Nat.div_add_mod n (10 ^ e)
    rw [hv]
    simp

theorem serNumNat_head_digit (n e : Nat) :
    headDigit (serNumNat n e) = true ∧ serNumNat n e ≠ [] := by
  rw [serNumNat]
  split_ifs
  · rcases hnd : natDigitsChars n with _ | ⟨c, r⟩
    · exact absurd hnd (natDigitsChars_ne_nil n)
    · constructor
      · have : c.isDigit = true := natDigitsChars_digit n c (by rw [hnd]; simp)
        simpa [headDigit] using this
      · simp
  · rcases hnd : natDigitsChars (n / 10 ^ e) with _ | ⟨c, r⟩
    · exact absurd hnd (natDigitsChars_ne_nil _)
    · constructor
      · have : c.isDigit = true := natDigitsChars_digit _ c (by rw [hnd]; simp)
        simpa [headDigit] using this
      · simp

theorem parseNum_ser (m : Int) (e : Nat) (l : List Char)
    (hd : headDigit l = false) (hdot : headIsDot l = false) :
    parseNum (serNum m e ++ l) = some (JValue.num m e, l) := by
  by_cases hm : m < 0
  · rw [serNum, if_pos hm, List.cons_append, List.nil_append, parseNum.eq_def]
    simp +decide [parseNumCore_ser m.natAbs e l hd hdot]
    rw [abs_of_neg hm]
    ring
  · rw [serNum, if_neg hm, List.nil_append]
    obtain ⟨hh, hne⟩ := serNumNat_head_digit m.natAbs e
    rcases hs : serNumNat m.natAbs e with _ | ⟨c, r⟩
    · exact absurd hs hne
    · rw [hs] at hh
      simp only [headDigit] at hh
      have hcm : ¬ c = '-' := by
        intro h
        rw [h] at hh
        exact absurd hh (by decide)
      have hcore : parseNumCore (c :: (r ++ l)) = some (m.natAbs, e, l) := by
        rw [← List.cons_append, ← hs]
        exact parseNumCore_ser m.natAbs e l hd hdot
      rw [List.cons_append, parseNum.eq_def]
      simp [hcm, hcore]
      omega

theorem sepOk_headDigit (l : List Char) (h : SepOk l) : headDigit l = false := by
  cases l with
  | nil => rfl
  | cons c r =>
    rcases h with h | h | h <;> subst h <;> rfl

theorem sepOk_headIsDot (l : List Char) (h : SepOk l) : headIsDot l = false := by
  cases l with
  | nil => rfl
  | cons c r =>
    rcases h with h | h | h <;> subst h <;> rfl

theorem digit_ne (c : Char) (h : c.isDigit = true) (d : Char) (hd : d.isDigit = false) :
    ¬ c = d := by
  intro he
  rw [he, hd] at h
  exact Bool.noConfusion h

theorem digit_not_ws (c : Char) (h : c.isDigit = true) : isJsonWs c = false := by
  have h1 := digit_ne c h ' ' (by decide)
  have h2 := digit_ne c h '\n' (by decide)
  have h3 := digit_ne c h '\t' (by decide)
  have h4 := digit_ne c h '\x0d' (by decide)
  simp [isJsonWs, h1, h2, h3, h4]

theorem serV_head (v : JValue) :
    ∃ c r, serV v = c :: r ∧ isJsonWs c = false ∧ ¬c = ']' ∧ ¬c = '\x7d' ∧ ¬c = ',' := by
  cases v with
  | null =>
    refine ⟨'n', ['u', 'l', 'l'], ?_, by decide, by decide, by decide, by decide⟩
    simp [serV]
  | bool b =>
    cases b with
    | true =>
      refine ⟨'t', ['r', 'u', 'e'], ?_, by decide, by decide, by decide, by decide⟩
      simp [serV]
    | false =>
      refine ⟨'f', ['a', 'l', 's', 'e'], ?_, by decide, by decide, by decide, by decide⟩
      simp [serV]
  | num m e =>
    by_cases hm : m < 0
    · refine ⟨'-', serNumNat m.natAbs e, ?_, by decide, by decide, by decide, by decide⟩
      simp [serV, serNum, hm]
    · obtain ⟨hh, hne⟩ := serNumNat_head_digit m.natAbs e
      rcases hs : serNumNat m.natAbs e with _ | ⟨c, r⟩
      · exact absurd hs hne
      · rw [hs] at hh
        simp only [headDigit] at hh
        refine ⟨c, r, ?_, digit_not_ws c hh, digit_ne c hh ']' (by decide),
          digit_ne c hh '\x7d' (by decide), digit_ne c hh ',' (by decide)⟩
        simp [serV, serNum, hm, hs]
  | str s =>
    refine ⟨'"', escChars s.data ++ ['"'], ?_, by decide, by decide, by decide, by decide⟩
    simp [serV]
  | arr vs =>
    cases vs with
    | nil =>
      refine ⟨'[', [']'], ?_, by decide, by decide, by decide, by decide⟩
      simp [serV]
    | cons v vs =>
      refine ⟨'[', serV v ++ serElems vs ++ [']'], ?_, by decide, by decide, by decide, by decide⟩
      simp [serV]
  | obj fs =>
    cases fs with
    | nil =>
      refine ⟨'\x7b', ['\x7d'], ?_, by decide, by decide, by decide, by decide⟩
      simp [serV]
    | cons kv fs =>
      obtain ⟨k, v⟩ := kv
      refine ⟨'\x7b', serKV k v ++ serFields fs ++ ['\x7d'], ?_,
        by decide, by decide, by decide, by decide⟩
      simp [serV]

theorem skipWs_serV (v : JValue) (l : List Char) : skipWs (serV v ++ l) = serV v ++ l := by
  obtain ⟨c, r, hcr, hws, -, -, -⟩ := serV_head v
  rw [hcr, List.cons_append, skipWs_cons_not_ws _ _ hws]

theorem jsizeV_pos (v : JValue) : 1 ≤ jsizeV v := by
  cases v <;> simp [jsizeV]

theorem stringMk_data (s : String) : String.mk s.data = s := rfl

theorem serNum_head (m : Int) (e : Nat) :
    ∃ c r, serNum m e = c :: r ∧ ¬c = '"' ∧ ¬c = '\x7b' ∧ ¬c = '[' ∧
      ¬c = 'n' ∧ ¬c = 't' ∧ ¬c = 'f' := by
  by_cases hm : m < 0
  · exact ⟨'-', serNumNat m.natAbs e, by simp [serNum, hm], by decide, by decide,
      by decide, by decide, by decide, by decide⟩
  · obtain ⟨hh, hne⟩ := serNumNat_head_digit m.natAbs e
    rcases hs : serNumNat m.natAbs e with _ | ⟨c, r⟩
    · exact absurd hs hne
    · rw [hs] at hh
      simp only [headDigit] at hh
      exact ⟨c, r, by simp [serNum, hm, hs], digit_ne c hh '"' (by decide),
        digit_ne c hh '\x7b' (by decide), digit_ne c hh '[' (by decide),
        digit_ne c hh 'n' (by decide), digit_ne c hh 't' (by decide),
        digit_ne c hh 'f' (by decide)⟩

theorem skipWs_serKV (k : String) (v : JValue) (l : List Char) :
    skipWs (serKV k v ++ l) = serKV k v ++ l := by
  rw [show serKV k v = '"' :: (escChars k.data ++ '"' :: ':' :: ' ' :: serV v) from by
    simp [serKV]]
  rw [List.cons_append, skipWs_cons_not_ws _ _ (by decide)]

theorem sepOk_serFields (fs : List (String × JValue)) (rest : List Char) :
    SepOk (serFields fs ++ '\x7d' :: rest) := by
  cases fs with
  | nil =>
    simp only [serFields, List.nil_append]
    exact Or.inr (Or.inl rfl)
  | cons kv fs =>
    obtain ⟨k, v⟩ := kv
    rw [show serFields ((k, v) :: fs) = ',' :: ' ' :: (serKV k v ++ serFields fs) from by
      simp [serFields]]
    exact Or.inl rfl

theorem sepOk_serElems (vs : List JValue) (rest : List Char) :
    SepOk (serElems vs ++ ']' :: rest) := by
  cases vs with
  | nil =>
    simp only [serElems, List.nil_append]
    exact Or.inr (Or.inr rfl)
  | cons v vs =>
    rw [show serElems (v :: vs) = ',' :: ' ' :: (serV v ++ serElems vs) from by
      simp [serElems]]
    exact Or.inl rfl

theorem serLen_all (n : Nat) :
    (∀ v, jsizeV v ≤ n → jsizeV v ≤ (serV v).length) ∧
    (∀ fs, jsizeFields fs ≤ n → jsizeFields fs ≤ (serFields fs).length) ∧
    (∀ vs, jsizeElems vs ≤ n → jsizeElems vs ≤ (serElems vs).length) := by
  induction n with
  | zero =>
    refine ⟨fun v hv => absurd hv (by have := jsizeV_pos v; omega), ?_, ?_⟩
    · intro fs hfs
      cases fs with
      | nil => simp [jsizeFields]
      | cons kv fs =>
        obtain ⟨k, v⟩ := kv
        simp only [jsizeFields] at hfs
        omega
    · intro vs hvs
      cases vs with
      | nil => simp [jsizeElems]
      | cons v vs =>
        simp only [jsizeElems] at hvs
        omega
  | succ n ih =>
    obtain ⟨ihA, ihB, ihC⟩ := ih
    refine ⟨?_, ?_, ?_⟩
    · intro v hv
      cases v with
      | null => simp [jsizeV, serV]
      | bool b => cases b <;> simp [jsizeV, serV]
      | num m e =>
        obtain ⟨c, r, hcr, -, -, -, -, -, -⟩ := serNum_head m e
        rw [show serV (JValue.num m e) = serNum m e from by simp [serV], hcr]
        simp [jsizeV]
      | str s => simp [jsizeV, serV]
      | arr vs =>
        cases vs with
        | nil => simp [jsizeV, jsizeElems, serV]
        | cons v vs =>
          simp only [jsizeV, jsizeElems] at hv ⊢
          have h1 := ihA v (by omega)
          have h2 := ihC vs (by omega)
          simp only [serV, List.length_cons, List.length_append, List.length_singleton,
            serElems]
          omega
      | obj fs =>
        cases fs with
        | nil => simp [jsizeV, jsizeFields, serV]
        | cons kv fs =>
          obtain ⟨k, v⟩ := kv
          simp only [jsizeV, jsizeFields] at hv ⊢
          have h1 := ihA v (by omega)
          have h2 := ihB fs (by omega)
          simp only [serV, serKV, List.length_cons, List.length_append,
            List.length_singleton]
          omega
    · intro fs hfs
      cases fs with
      | nil => simp [jsizeFields]
      | cons kv fs =>
        obtain ⟨k, v⟩ := kv
        simp only [jsizeFields] at hfs ⊢
        have h1 := ihA v (by omega)
        have h2 := ihB fs (by omega)
        simp only [serFields, serKV, List.length_cons, List.length_append]
        omega
    · intro vs hvs
      cases vs with
      | nil => simp [jsizeElems]
      | cons v vs =>
        simp only [jsizeElems] at hvs ⊢
        have h1 := ihA v (by omega)
        have h2 := ihC vs (by omega)
        simp only [serElems, List.length_cons, List.length_append]
        omega

theorem jsizeV_le_serV_len (v : JValue) : jsizeV v ≤ (serV v).length :=
  (serLen_all (jsizeV v)).1 v le_rfl


theorem parseJ_ser (fuel : Nat) :
    (∀ v rest, jsizeV v ≤ fuel → SepOk rest →
      parseJ fuel PMode.val (serV v ++ rest) = some (v, rest)) ∧
    (∀ k v fs rest, 1 + jsizeV v + jsizeFields fs ≤ fuel →
      parseJ fuel PMode.members (serKV k v ++ (serFields fs ++ '\x7d' :: rest)) =
        some (JValue.obj ((k, v) :: fs), rest)) ∧
    (∀ v vs rest, 1 + jsizeV v + jsizeElems vs ≤ fuel →
      parseJ fuel PMode.elems (serV v ++ (serElems vs ++ ']' :: rest)) =
        some (JValue.arr (v :: vs), rest)) := by
  induction fuel with
  | zero =>
    refine ⟨fun v rest hv _ => absurd hv (by have := jsizeV_pos v; omega),
      fun k v fs rest h => absurd h (by omega),
      fun v vs rest h => absurd h (by omega)⟩
  | succ fuel ih =>
    obtain ⟨ihA, ihB, ihC⟩ := ih
    refine ⟨?_, ?_, ?_⟩
    · intro v rest hsz hsep
      cases v with
      | null =>
        rw [show serV JValue.null = ['n', 'u', 'l', 'l'] from by simp [serV],
          parseJ.eq_def]
        simp +decide [expectChars]
      | bool b =>
        cases b with
        | true =>
          rw [show serV (JValue.bool true) = ['t', 'r', 'u', 'e'] from by simp [serV],
            parseJ.eq_def]
          simp +decide [expectChars]
        | false =>
          rw [show serV (JValue.bool false) = ['f', 'a', 'l', 's', 'e'] from by simp [serV],
            parseJ.eq_def]
          simp +decide [expectChars]
      | num m e =>
        have hnum := parseNum_ser m e rest (sepOk_headDigit rest hsep) (sepOk_headIsDot rest hsep)
        rw [show serV (JValue.num m e) = serNum m e from by simp [serV]]
        obtain ⟨c, r, hcr, h1, h2, h3, h4, h5, h6⟩ := serNum_head m e
        rw [hcr, List.cons_append, parseJ.eq_def]
        simp only [h1, h2, h3, h4, h5, h6, if_false]
        rw [← List.cons_append, ← hcr]
        exact hnum
      | str s =>
        rw [show serV (JValue.str s) = '"' :: (escChars s.data ++ ['"']) from by simp [serV],
          List.cons_append, List.append_assoc, List.singleton_append, parseJ.eq_def]
        simp +decide only [if_true, if_false]
        rw [parse_escChars]
        simp [stringMk_data]
      | arr vs =>
        cases vs with
        | nil =>
          rw [show serV (JValue.arr []) = ['[', ']'] from by simp [serV], parseJ.eq_def]
          simp +decide [skipWs]
        | cons v vs =>
          have hsz2 : 1 + jsizeV v + jsizeElems vs ≤ fuel := by
            simp only [jsizeV, jsizeElems] at hsz
            omega
          rw [show serV (JValue.arr (v :: vs)) = '[' :: (serV v ++ (serElems vs ++ [']']))
              from by simp [serV], List.cons_append, parseJ.eq_def]
          simp +decide only [if_true, if_false]
          rw [List.append_assoc, List.append_assoc, List.singleton_append, skipWs_serV]
          obtain ⟨c, r, hcr, hws, hrb, hbr, hcm⟩ := serV_head v
          rw [hcr, List.cons_append]
          simp only [hrb, if_false]
          rw [← List.cons_append, ← hcr]
          exact ihC v vs rest hsz2
      | obj fs =>
        cases fs with
        | nil =>
          rw [show serV (JValue.obj []) = ['\x7b', '\x7d'] from by simp [serV], parseJ.eq_def]
          simp +decide [skipWs]
        | cons kv fs =>
          obtain ⟨k, v⟩ := kv
          have hsz2 : 1 + jsizeV v + jsizeFields fs ≤ fuel := by
            simp only [jsizeV, jsizeFields] at hsz
            omega
          rw [show serV (JValue.obj ((k, v) :: fs)) = '\x7b' :: (serKV k v ++ (serFields fs ++ ['\x7d']))
              from by simp [serV], List.cons_append, parseJ.eq_def]
          simp +decide only [if_true, if_false]
          rw [List.append_assoc, List.append_assoc, List.singleton_append, skipWs_serKV]
          rw [show serKV k v = '"' :: (escChars k.data ++ '"' :: ':' :: ' ' :: serV v)
              from by simp [serKV], List.cons_append]
          simp +decide only [if_true, if_false]
          rw [← List.cons_append,
            ← show serKV k v = '"' :: (escChars k.data ++ '"' :: ':' :: ' ' :: serV v)
              from by simp [serKV]]
          exact ihB k v fs rest hsz2
    · intro k v fs rest hsz
      have hkv : serKV k v = '"' :: (escChars k.data ++ '"' :: ':' :: ' ' :: serV v) := by
        simp [serKV]
      have hval := ihA v (serFields fs ++ '\x7d' :: rest)
        (by omega) (sepOk_serFields fs rest)
      rw [hkv, parseJ.eq_def]
      simp +decide only [List.cons_append, List.append_assoc, if_true, if_false]
      rw [parse_escChars]
      simp +decide only [skipWs, isJsonWs, if_true, if_false]
      rw [skipWs_serV, hval]
      cases fs with
      | nil =>
        simp +decide [serFields, skipWs, stringMk_data]
      | cons kv2 fs2 =>
        obtain ⟨k2, v2⟩ := kv2
        have hkv2 : serFields ((k2, v2) :: fs2) = ',' :: ' ' :: (serKV k2 v2 ++ serFields fs2) := by
          simp [serFields]
        have hmem := ihB k2 v2 fs2 rest (by simp only [jsizeFields] at hsz; omega)
        rw [hkv2]
        simp +decide only [List.cons_append, List.append_assoc, List.append_eq, skipWs,
          isJsonWs, if_true, if_false]
        rw [skipWs_serKV, hmem]
    · intro v vs rest hsz
      have hval := ihA v (serElems vs ++ ']' :: rest) (by omega) (sepOk_serElems vs rest)
      rw [parseJ.eq_def]
      simp +decide only [if_true, if_false]
      rw [hval]
      cases vs with
      | nil => simp +decide [serElems, skipWs]
      | cons v2 vs2 =>
        have hv2 : serElems (v2 :: vs2) = ',' :: ' ' :: (serV v2 ++ serElems vs2) := by
          simp [serElems]
        have helems := ihC v2 vs2 rest (by simp only [jsizeElems] at hsz; omega)
        rw [hv2]
        simp +decide only [List.cons_append, List.append_assoc, List.append_eq, skipWs,
          isJsonWs, if_true, if_false]
        rw [skipWs_serV, helems]

theorem jsonLoads_ser (v : JValue) : jsonLoads (String.mk (serV v)) = some v := by
  rw [jsonLoads]
  have hdata : (String.mk (serV v)).data = serV v := rfl
  rw [hdata]
  have h1 : skipWs (serV v) = serV v := by
    have h := skipWs_serV v []
    simpa using h
  rw [h1]
  have h2 := (parseJ_ser ((serV v).length + 1)).1 v []
    (by have := jsizeV_le_serV_len v; omega) trivial
  rw [List.append_nil] at h2
  rw [h2]
  simp [skipWs]

/-- The JSON report round-trips: re-parsing the dumped result list yields
exactly the list of result objects. -/
theorem jsonLoads_dumps (xs : List Dict) :
    jsonLoads (jsonDumps xs) = some (JValue.arr (xs.map JValue.obj)) := by
  rw [jsonDumps]
  exact jsonLoads_ser (JValue.arr (xs.map JValue.obj))

/-! ### Properties of the enrichment function and the row loop -/

theorem dictGet_dictSet (d : Dict) (k : String) (v : JValue) :
    dictGet (dictSet d k v) k = some v := by
  induction d with
  | nil => simp [dictSet, dictGet, List.find?]
  | cons p rest ih =>
    obtain ⟨k', v'⟩ := p
    by_cases h : k' = k
    · subst h
      simp [dictSet, dictGet, List.find?]
    · rw [dictSet, if_neg h, dictGet, List.find?_cons_of_neg _ (by simpa using h)]
      rw [dictGet] at ih
      exact ih

theorem dictHasKey_dictSet (d : Dict) (k : String) (v : JValue) :
    dictHasKey (dictSet d k v) k = true := by
  rw [dictHasKey, dictGet_dictSet]
  rfl

theorem cacheGet_mem (c : Cache) (k : String) (d : Dict) (h : Cache.get c k = some d) :
    (k, d) ∈ c := by
  rw [Cache.get] at h
  cases hf : c.find? (fun p => decide (p.1 = k)) with
  | none => rw [hf] at h; exact Option.noConfusion h
  | some p =>
    rw [hf] at h
    have hm := List.mem_of_find?_eq_some hf
    have hp := List.find?_some hf
    obtain ⟨p1, p2⟩ := p
    simp only [Option.map] at h
    simp only [decide_eq_true_eq] at hp
    injection h with h2
    subst hp
    subst h2
    exact hm

theorem cacheWF_add (c : Cache) (k : String) (d : Dict) (hc : cacheWF c)
    (hd : dictHasKey d "url" = true) : cacheWF (Cache.add c k d) := by
  rw [Cache.add]
  cases Cache.get c k with
  | some _ => exact hc
  | none =>
    intro p hp
    rcases List.mem_append.mp hp with h | h
    · exact hc p h
    · simp only [List.mem_singleton] at h
      subst h
      exact hd

theorem fCompute_called (llm : LLM) (cache : Cache) (url : String) :
    (fCompute llm cache url).called = true := by
  rw [fCompute]
  cases llm url with
  | success text =>
    cases hj : jsonLoads (cleanOutput text) with
    | none => simp [hj]
    | some v => cases v <;> simp [hj]
  | httpError sc msg => simp
  | otherError msg => simp

theorem fCompute_hasUrl (llm : LLM) (cache : Cache) (url : String) (d : Dict)
    (h : (fCompute llm cache url).res = FRes.ok d) : dictHasKey d "url" = true := by
  rw [fCompute] at h
  cases hllm : llm url with
  | success text =>
    rw [hllm] at h
    cases hj : jsonLoads (cleanOutput text) with
    | none =>
      simp only [hj] at h
      injection h with h2
      rw [← h2]
      exact dictHasKey_dictSet _ _ _
    | some v =>
      simp only [hj] at h
      cases v with
      | obj fields =>
        have h2 : dictSet fields "url" (JValue.str url) = d := by
          injection h
        rw [← h2]
        exact dictHasKey_dictSet _ _ _
      | null => simp at h
      | bool b => simp at h
      | num m e => simp at h
      | str s => simp at h
      | arr vs => simp at h
  | httpError sc msg =>
    rw [hllm] at h
    injection h with h2
    rw [← h2]
    exact dictHasKey_dictSet _ _ _
  | otherError msg =>
    rw [hllm] at h
    injection h with h2
    rw [← h2]
    exact dictHasKey_dictSet _ _ _

theorem fCompute_WF (llm : LLM) (cache : Cache) (url : String) (hc : cacheWF cache) :
    cacheWF (fCompute llm cache url).cache := by
  rw [fCompute]
  cases llm url with
  | success text =>
    cases hj : jsonLoads (cleanOutput text) with
    | none =>
      simp only [hj]
      exact cacheWF_add _ _ _ hc (dictHasKey_dictSet _ _ _)
    | some v =>
      simp only [hj]
      cases v with
      | obj fields => exact cacheWF_add _ _ _ hc (dictHasKey_dictSet _ _ _)
      | null => exact hc
      | bool b => exact hc
      | num m e => exact hc
      | str s => exact hc
      | arr vs => exact hc
  | httpError sc msg => exact cacheWF_add _ _ _ hc (dictHasKey_dictSet _ _ _)
  | otherError msg => exact cacheWF_add _ _ _ hc (dictHasKey_dictSet _ _ _)

theorem fCompute_cache_stable (llm : LLM) (cache : Cache) (url : String) (d : Dict)
    (hget : Cache.get cache url = some d) : (fCompute llm cache url).cache = cache := by
  have hadd : ∀ v : Dict, Cache.add cache url v = cache := by
    intro v
    rw [Cache.add, hget]
  rw [fCompute]
  cases llm url with
  | success text =>
    cases hj : jsonLoads (cleanOutput text) with
    | none =>
      simp only [hj]
      exact hadd _
    | some v =>
      simp only [hj]
      cases v with
      | obj fields => exact hadd _
      | null => rfl
      | bool b => rfl
      | num m e => rfl
      | str s => rfl
      | arr vs => rfl
  | httpError sc msg => exact hadd _
  | otherError msg => exact hadd _

theorem f_hit (llm : LLM) (cache : Cache) (url : String) (d : Dict)
    (hget : Cache.get cache url = some d) (hne : d ≠ [])
    (hexc : pyIsNone (dictGet d "exception") = true) :
    f llm cache url = ⟨FRes.ok d, cache, false, false⟩ := by
  rcases d with _ | ⟨p, rest⟩
  · exact absurd rfl hne
  · rw [f, hget]
    simp [hexc, List.isEmpty_cons]

theorem f_eq_fCompute (llm : LLM) (cache : Cache) (url : String)
    (h : cacheHit cache url = false) : f llm cache url = fCompute llm cache url := by
  cases hg : Cache.get cache url with
  | none => rw [f, hg]
  | some c =>
    rw [cacheHit, hg] at h
    change (!c.isEmpty && pyIsNone (dictGet c "exception")) = false at h
    rw [f, hg]
    change (if (!c.isEmpty && pyIsNone (dictGet c "exception")) = true then
      (⟨FRes.ok c, cache, false, false⟩ : FOutput) else fCompute llm cache url) =
      fCompute llm cache url
    rw [h]
    simp

theorem f_cache_stable (llm : LLM) (cache : Cache) (url : String) (d : Dict)
    (hget : Cache.get cache url = some d) : (f llm cache url).cache = cache := by
  rw [f, hget]
  change (if (!d.isEmpty && pyIsNone (dictGet d "exception")) = true then
    (⟨FRes.ok d, cache, false, false⟩ : FOutput) else fCompute llm cache url).cache = cache
  by_cases h : (!d.isEmpty && pyIsNone (dictGet d "exception")) = true
  · rw [if_pos h]
  · rw [if_neg h]
    exact fCompute_cache_stable llm cache url d hget

theorem f_hasUrl (llm : LLM) (cache : Cache) (url : String) (d : Dict)
    (hwf : cacheWF cache) (h : (f llm cache url).res = FRes.ok d) :
    dictHasKey d "url" = true := by
  rw [f] at h
  cases hg : Cache.get cache url with
  | none =>
    rw [hg] at h
    exact fCompute_hasUrl llm cache url d h
  | some c =>
    rw [hg] at h
    change (if (!c.isEmpty && pyIsNone (dictGet c "exception")) = true then
      (⟨FRes.ok c, cache, false, false⟩ : FOutput) else fCompute llm cache url).res =
      FRes.ok d at h
    by_cases hc : (!c.isEmpty && pyIsNone (dictGet c "exception")) = true
    · rw [if_pos hc] at h
      injection h with h2
      rw [← h2]
      exact hwf (url, c) (cacheGet_mem cache url c hg)
    · rw [if_neg hc] at h
      exact fCompute_hasUrl llm cache url d h

theorem f_WF (llm : LLM) (cache : Cache) (url : String) (hwf : cacheWF cache) :
    cacheWF (f llm cache url).cache := by
  rw [f]
  cases hg : Cache.get cache url with
  | none => exact fCompute_WF llm cache url hwf
  | some c =>
    change cacheWF (if (!c.isEmpty && pyIsNone (dictGet c "exception")) = true then
      (⟨FRes.ok c, cache, false, false⟩ : FOutput) else fCompute llm cache url).cache
    by_cases hc : (!c.isEmpty && pyIsNone (dictGet c "exception")) = true
    · rw [if_pos hc]
      exact hwf
    · rw [if_neg hc]
      exact fCompute_WF llm cache url hwf

theorem processRows_skip (llm : LLM) (cache : Cache) (cell : Option String)
    (rest : List (Option String))
    (h : ∀ s, cell = some s → startsWithHttps s = false) :
    processRows llm cache (cell :: rest) = processRows llm cache rest := by
  cases cell with
  | none => rw [processRows]
  | some s =>
    have hs := h s rfl
    rw [processRows]
    simp [hs]

theorem processRows_cons_ok (llm : LLM) (cache : Cache) (s : String)
    (rest : List (Option String)) (d : Dict)
    (hs : startsWithHttps s = true)
    (hres : (f llm cache s).res = FRes.ok d) :
    processRows llm cache (some s :: rest) =
      (processRows llm (f llm cache s).cache rest).map
        (fun o => ⟨d :: o.results, o.cache,
          (if (f llm cache s).called then [s] else []) ++ o.llmCalls⟩) := by
  rw [processRows]
  simp [hs, hres]

theorem processRows_hasUrl (llm : LLM) (rows : List (Option String)) :
    ∀ cache out, cacheWF cache → processRows llm cache rows = some out →
      ∀ d ∈ out.results, dictHasKey d "url" = true := by
  induction rows with
  | nil =>
    intro cache out _ h
    rw [processRows] at h
    injection h with h2
    rw [← h2]
    intro d hd
    simp at hd
  | cons cell rest ih =>
    intro cache out hwf h
    cases cell with
    | none =>
      rw [processRows] at h
      exact ih cache out hwf h
    | some s =>
      by_cases hs : startsWithHttps s = true
      · cases hres : (f llm cache s).res with
        | crash msg =>
          rw [processRows] at h
          simp only [hs, if_true, hres] at h
          exact Option.noConfusion h
        | ok d0 =>
          rw [processRows] at h
          simp only [hs, if_true, hres] at h
          cases hrec : processRows llm (f llm cache s).cache rest with
          | none =>
            rw [hrec] at h
            exact Option.noConfusion h
          | some o2 =>
            rw [hrec] at h
            simp only [Option.map] at h
            injection h with h2
            intro d hd
            rw [← h2] at hd
            rcases List.mem_cons.mp hd with hd | hd
            · subst hd
              exact f_hasUrl llm cache s d hwf hres
            · exact ih _ o2 (f_WF llm cache s hwf) hrec d hd
      · have hs' : startsWithHttps s = false := by
          cases hb : startsWithHttps s
          · rfl
          · exact absurd hb hs
        rw [processRows] at h
        simp only [hs', Bool.false_eq_true, if_false] at h
        exact ih cache out hwf h

theorem mem_insertRow (x z : CsvRow) (l : List CsvRow) :
    z ∈ insertRow x l ↔ z = x ∨ z ∈ l := by
  induction l with
  | nil => simp [insertRow]
  | cons y ys ih =>
    rw [insertRow]
    by_cases h : rowConf y ≤ rowConf x
    · rw [if_pos h]
      simp
    · rw [if_neg h]
      simp only [List.mem_cons, ih]
      tauto

theorem insertRow_pairwise (x : CsvRow) (l : List CsvRow)
    (hl : List.Pairwise (fun a b => rowConf b ≤ rowConf a) l) :
    List.Pairwise (fun a b => rowConf b ≤ rowConf a) (insertRow x l) := by
  induction l with
  | nil => simp [insertRow]
  | cons y ys ih =>
    rw [List.pairwise_cons] at hl
    obtain ⟨hy, hys⟩ := hl
    rw [insertRow]
    by_cases h : rowConf y ≤ rowConf x
    · rw [if_pos h, List.pairwise_cons]
      constructor
      · intro z hz
        rcases List.mem_cons.mp hz with rfl | hz
        · exact h
        · exact le_trans (hy z hz) h
      · rw [List.pairwise_cons]
        exact ⟨hy, hys⟩
    · rw [if_neg h, List.pairwise_cons]
      constructor
      · intro z hz
        rcases (mem_insertRow x z ys).mp hz with rfl | hz
        · exact le_of_not_le h
        · exact hy z hz
      · exact ih hys

theorem sortRows_pairwise (l : List CsvRow) :
    List.Pairwise (fun a b => rowConf b ≤ rowConf a) (sortRows l) := by
  induction l with
  | nil => simp [sortRows]
  | cons x xs ih =>
    rw [sortRows]
    exact insertRow_pairwise x _ ih

/-! ### The claims -/

/-- C3: insert-if-absent cache write — for every URL that already has a
cache entry when `_f` runs (in particular a stored failure that a successful
retry would recompute), the cache is unchanged by the call and the stored
entry still maps to its old value: the newly computed result is not written
over it. -/
theorem C3_insert_if_absent (llm : LLM) (cache : Cache) (url : String) (d : Dict)
    (hget : Cache.get cache url = some d) :
    (f llm cache url).cache = cache ∧
    Cache.get (f llm cache url).cache url = some d := by
  have h := f_cache_stable llm cache url d hget
  refine ⟨h, ?_⟩
  rw [h]
  exact hget

/-- C3 witness: a stored failure for the example URL, retried successfully
(`llmEmptyObj`), still maps to the old failure entry after the call. -/
theorem C3_insert_if_absent_witness :
    Cache.get cacheWithFailure exUrl = some excBoomDict ∧
    ((f llmEmptyObj cacheWithFailure exUrl).cache = cacheWithFailure ∧
      Cache.get (f llmEmptyObj cacheWithFailure exUrl).cache exUrl = some excBoomDict) :=
  ⟨rfl, C3_insert_if_absent llmEmptyObj cacheWithFailure exUrl excBoomDict rfl⟩

/-- C4: cleanup-and-parse example — for the URL `https://example.org` and
the fenced response text of the specification, stripping newlines and
triple-backtick fences, normalising the `json{` marker, parsing the JSON and
attaching the URL yields exactly the expected four-field result, which is
also inserted into the (empty) cache. -/
theorem C4_cleanup_parse_example :
    cleanOutput exampleRaw =
      "\x7b\"Type\": \"Non-profit\", \"Location\": \x7b\"Country\": \"US\"\x7d, \"Confidence\": 0.91\x7d" ∧
    f (fun _ => LLMOutcome.success exampleRaw) [] exUrl =
      ⟨FRes.ok exampleParsed, [(exUrl, exampleParsed)], true, false⟩ :=
  ⟨rfl, rfl⟩

/-- C7: URL filter — a row whose `organization_website` cell is not a string
(`none`) or is a string not starting with `https://` is never passed to the
enrichment function and contributes nothing to the run: the loop's outcome
on such a row is identical to the loop without it (same results, same cache,
same list of model invocations). -/
theorem C7_url_filter (llm : LLM) (cache : Cache) (cell : Option String)
    (rest : List (Option String))
    (h : ∀ s, cell = some s → startsWithHttps s = false) :
    processRows llm cache (cell :: rest) = processRows llm cache rest :=
  processRows_skip llm cache cell rest h

/-- C7 witness: a `http://` (non-https) cell is skipped. -/
theorem C7_url_filter_witness :
    (∀ s, (some "http://example.org" : Option String) = some s →
      startsWithHttps s = false) ∧
    processRows llmEmptyObj [] [some "http://example.org"] = processRows llmEmptyObj [] [] :=
  ⟨fun s hs => by injection hs with h2; rw [← h2]; rfl,
    C7_url_filter llmEmptyObj [] (some "http://example.org") []
      (fun s hs => by injection hs with h2; rw [← h2]; rfl)⟩

/-- C9: fail-fast configuration — when `MISTRAL_API_KEY` is absent from the
environment, settings loading fails and the script aborts before the
download step, before any row iteration and before any model call (the
download flag is false and the list of model invocations is empty). -/
theorem C9_fail_fast (env : Env) (llm : LLM) (cache : Cache) (rows : List (Option String))
    (h : envGet env "MISTRAL_API_KEY" = none) :
    runScript env llm cache rows =
      ⟨Except.error "validation error: MISTRAL_API_KEY missing", false, []⟩ := by
  rw [runScript, loadSettings, h]

/-- C9 witness: an environment with only `MISTRAL_MODEL` set. -/
theorem C9_fail_fast_witness :
    envGet [("MISTRAL_MODEL", "mistral-medium")] "MISTRAL_API_KEY" = none ∧
    runScript [("MISTRAL_MODEL", "mistral-medium")] llmEmptyObj [] [some exUrl] =
      ⟨Except.error "validation error: MISTRAL_API_KEY missing", false, []⟩ :=
  ⟨rfl, C9_fail_fast [("MISTRAL_MODEL", "mistral-medium")] llmEmptyObj [] [some exUrl] rfl⟩

/-- C10: falsy cache entry — the cache-hit test requires the cached value to
be truthy, so a URL whose cache entry is the empty mapping (falsy, with no
exception field) is treated as a miss: the external model is re-invoked, and
the returned result is never the stored empty entry. -/
theorem C10_falsy_entry (llm : LLM) (cache : Cache) (url : String)
    (h : Cache.get cache url = some ([] : Dict)) :
    (f llm cache url).called = true ∧
    ∀ d, (f llm cache url).res = FRes.ok d → d ≠ [] := by
  have hmiss : cacheHit cache url = false := by
    rw [cacheHit, h]
    rfl
  rw [f_eq_fCompute llm cache url hmiss]
  refine ⟨fCompute_called llm cache url, ?_⟩
  intro d hd hdnil
  have hu := fCompute_hasUrl llm cache url d hd
  rw [hdnil] at hu
  simp [dictHasKey, dictGet, List.find?] at hu

/-- C10 witness: an empty entry stored for the example URL is recomputed. -/
theorem C10_falsy_entry_witness :
    Cache.get [(exUrl, ([] : Dict))] exUrl = some ([] : Dict) ∧
    ((f llmEmptyObj [(exUrl, [])] exUrl).called = true ∧
      ∀ d, (f llmEmptyObj [(exUrl, [])] exUrl).res = FRes.ok d → d ≠ []) :=
  ⟨rfl, C10_falsy_entry llmEmptyObj [(exUrl, [])] exUrl rfl⟩

/-- C1 counterexample: the claim as stated is false.  With the entry for
`https://example.org` pre-set to the empty mapping, the first call succeeds
(its result has no exception) and the cached entry after the first call has
no exception field, yet the second call still invokes the external model
and does not return the cached value — the hit test also requires the
cached entry to be truthy (non-empty). -/
theorem C1_counterexample :
    (f llmEmptyObj [(exUrl, [])] exUrl).res = FRes.ok [("url", JValue.str exUrl)] ∧
    Cache.get (f llmEmptyObj [(exUrl, [])] exUrl).cache exUrl = some ([] : Dict) ∧
    dictHasKey ([] : Dict) "exception" = false ∧
    (f llmEmptyObj (f llmEmptyObj [(exUrl, [])] exUrl).cache exUrl).called = true ∧
    (f llmEmptyObj (f llmEmptyObj [(exUrl, [])] exUrl).cache exUrl).res ≠
      FRes.ok ([] : Dict) := by
  refine ⟨rfl, rfl, rfl, rfl, ?_⟩
  intro h
  rw [show (f llmEmptyObj (f llmEmptyObj [(exUrl, [])] exUrl).cache exUrl).res =
    FRes.ok [("url", JValue.str exUrl)] from rfl] at h
  injection h with h2
  exact List.noConfusion h2

/-- C1 (amended): idempotence of enrichment — for every URL whose cached
entry after the first call is non-empty and has no exception field, a second
call on the same URL without clearing the cache performs no external model
call, returns the cached value, leaves the cache unchanged and emits no
warning; hence the second call adds no external call beyond the at most one
made by the first. -/
theorem C1_amended_idempotence (llm : LLM) (cache : Cache) (url : String) (d : Dict)
    (h1 : Cache.get (f llm cache url).cache url = some d)
    (h2 : d ≠ []) (h3 : dictHasKey d "exception" = false) :
    f llm (f llm cache url).cache url =
      ⟨FRes.ok d, (f llm cache url).cache, false, false⟩ := by
  apply f_hit llm (f llm cache url).cache url d h1 h2
  rw [dictHasKey] at h3
  cases hdg : dictGet d "exception" with
  | none => rfl
  | some v =>
    rw [hdg] at h3
    exact Bool.noConfusion h3

/-- C1 witness: a successful first call on an empty cache makes the second
call a pure cache hit. -/
theorem C1_amended_idempotence_witness :
    Cache.get (f llmEmptyObj [] exUrl).cache exUrl = some [("url", JValue.str exUrl)] ∧
    ([("url", JValue.str exUrl)] : Dict) ≠ [] ∧
    dictHasKey [("url", JValue.str exUrl)] "exception" = false ∧
    f llmEmptyObj (f llmEmptyObj [] exUrl).cache exUrl =
      ⟨FRes.ok [("url", JValue.str exUrl)], (f llmEmptyObj [] exUrl).cache, false, false⟩ :=
  ⟨rfl, by simp, rfl,
    C1_amended_idempotence llmEmptyObj [] exUrl [("url", JValue.str exUrl)] rfl (by simp) rfl⟩

/-- C2 counterexample: the claim as stated is false.  A cache entry that
contains an `exception` field whose value is null — reachable when the model
output itself contains `"exception": null` — is treated as a good hit:
`c.get("exception") is None` holds, so the entry is returned verbatim and
the model is not re-invoked. -/
theorem C2_counterexample :
    Cache.get (f llmNullExc [] exUrl).cache exUrl =
      some [("exception", JValue.null), ("url", JValue.str exUrl)] ∧
    dictHasKey [("exception", JValue.null), ("url", JValue.str exUrl)] "exception" = true ∧
    (f llmNullExc (f llmNullExc [] exUrl).cache exUrl).called = false ∧
    (f llmNullExc (f llmNullExc [] exUrl).cache exUrl).res =
      FRes.ok [("exception", JValue.null), ("url", JValue.str exUrl)] :=
  ⟨rfl, rfl, rfl, rfl⟩

/-- C2 (amended): retry-on-failure — for every URL whose cache entry
contains an `exception` field with a non-null value (as every stored failure
has: the error text string), a subsequent call does not take the cache-hit
early return but re-invokes the external model.  (Re-invocation is the
formalisation of "does not return that cached entry": the recomputed result
could coincidentally equal the stored one.) -/
theorem C2_amended_retry (llm : LLM) (cache : Cache) (url : String) (d : Dict) (v : JValue)
    (hd : Cache.get cache url = some d)
    (hv : dictGet d "exception" = some v) (hnn : v ≠ JValue.null) :
    (f llm cache url).called = true := by
  have hmiss : cacheHit cache url = false := by
    rw [cacheHit, hd]
    change (!d.isEmpty && pyIsNone (dictGet d "exception")) = false
    rw [hv]
    cases v with
    | null => exact absurd rfl hnn
    | bool b => simp [pyIsNone]
    | num m e => simp [pyIsNone]
    | str s => simp [pyIsNone]
    | arr vs => simp [pyIsNone]
    | obj fs => simp [pyIsNone]
  rw [f_eq_fCompute llm cache url hmiss]
  exact fCompute_called llm cache url

/-- C2 witness: a stored failure with error text `boom` is retried. -/
theorem C2_amended_retry_witness :
    Cache.get cacheWithFailure exUrl = some excBoomDict ∧
    dictGet excBoomDict "exception" = some (JValue.str "boom") ∧
    (JValue.str "boom" ≠ JValue.null) ∧
    (f llmEmptyObj cacheWithFailure exUrl).called = true :=
  ⟨rfl, rfl, by simp,
    C2_amended_retry llmEmptyObj cacheWithFailure exUrl excBoomDict (JValue.str "boom")
      rfl rfl (by simp)⟩

/-- C5: HTTP 401/403 handling — when the cache misses and the model call for
a URL raises a transport error with status 401 or 403, `_f` emits the
permission warning and returns a result holding exactly the `exception`
text and the original URL, inserting it into the cache; the failure does not
abort the batch: the loop on this row continues into the remaining rows. -/
theorem C5_http_error_handling (llm : LLM) (cache : Cache) (url : String) (sc : Nat)
    (msg : String) (rest : List (Option String))
    (hmiss : cacheHit cache url = false)
    (hllm : llm url = LLMOutcome.httpError sc msg)
    (hsc : sc = 401 ∨ sc = 403)
    (hurl : startsWithHttps url = true) :
    f llm cache url =
      ⟨FRes.ok [("exception", JValue.str msg), ("url", JValue.str url)],
        Cache.add cache url [("exception", JValue.str msg), ("url", JValue.str url)],
        true, true⟩ ∧
    processRows llm cache (some url :: rest) =
      (processRows llm (Cache.add cache url
          [("exception", JValue.str msg), ("url", JValue.str url)]) rest).map
        (fun o => ⟨[("exception", JValue.str msg), ("url", JValue.str url)] :: o.results,
          o.cache, url :: o.llmCalls⟩) := by
  have hwarn : (decide (sc = 401) || decide (sc = 403)) = true := by
    rcases hsc with h | h <;> subst h <;> decide
  have hf : f llm cache url =
      ⟨FRes.ok [("exception", JValue.str msg), ("url", JValue.str url)],
        Cache.add cache url [("exception", JValue.str msg), ("url", JValue.str url)],
        true, true⟩ := by
    rw [f_eq_fCompute llm cache url hmiss, fCompute, hllm]
    simp +decide [dictSet, hwarn]
  refine ⟨hf, ?_⟩
  rw [processRows_cons_ok llm cache url rest _ hurl (by rw [hf]), hf]
  simp

/-- C5 witness: a 403 on the single example row. -/
theorem C5_http_error_handling_witness :
    cacheHit [] "https://a" = false ∧
    llm403 "https://a" = LLMOutcome.httpError 403 "forbidden" ∧
    (403 = 401 ∨ 403 = 403) ∧
    startsWithHttps "https://a" = true ∧
    (f llm403 [] "https://a" =
      ⟨FRes.ok [("exception", JValue.str "forbidden"), ("url", JValue.str "https://a")],
        Cache.add [] "https://a"
          [("exception", JValue.str "forbidden"), ("url", JValue.str "https://a")],
        true, true⟩ ∧
    processRows llm403 [] [some "https://a"] =
      (processRows llm403 (Cache.add [] "https://a"
          [("exception", JValue.str "forbidden"), ("url", JValue.str "https://a")]) []).map
        (fun o => ⟨[("exception", JValue.str "forbidden"),
            ("url", JValue.str "https://a")] :: o.results,
          o.cache, "https://a" :: o.llmCalls⟩)) :=
  ⟨rfl, rfl, Or.inr rfl, rfl,
    C5_http_error_handling llm403 [] "https://a" 403 "forbidden" []
      rfl rfl (Or.inr rfl) rfl⟩

/-- C6 counterexample: the claim as stated is false — the written CSV does
not contain exactly the six columns.  `to_csv` is called without
`index=False`, so pandas prepends the row index as an unnamed seventh
column: the header is `["", url, Confidence, manual_Type, Type,
manual_Location, Location]`. -/
theorem C6_counterexample : (mkCsvTable [] []).headerCells ≠ csvColumns := by
  decide

/-- C6 (amended): CSV report shape and order — the written CSV contains the
six columns url, Confidence, manual_Type, Type, manual_Location, Location in
that order, preceded by the unnamed index column; its rows are sorted by
Confidence in descending order, and every row lacking a Confidence value
(`rowConf = ⊥`) is ordered after all rows that have one. -/
theorem C6_amended_csv_shape (results : List Dict) (orgs : List OrgRow) :
    (mkCsvTable results orgs).headerCells = "" :: csvColumns ∧
    List.Pairwise (fun a b => rowConf b ≤ rowConf a ∧ (rowConf a = ⊥ → rowConf b = ⊥))
      (mkCsvTable results orgs).rows := by
  refine ⟨rfl, ?_⟩
  refine (sortRows_pairwise _).imp ?_
  intro a b hab
  exact ⟨hab, fun hbot => le_bot_iff.mp (hbot ▸ hab)⟩

/-- C8: JSON round-trip — on any run of the loop that completes (starting
from a well-formed cache, as only `_f` ever writes entries), re-parsing the
dumped JSON file yields exactly the list of collected result objects, and
every one of them contains a `url` key. -/
theorem C8_json_round_trip (llm : LLM) (cache : Cache) (rows : List (Option String))
    (out : RunOut) (hwf : cacheWF cache)
    (hrun : processRows llm cache rows = some out) :
    jsonLoads (jsonDumps out.results) = some (JValue.arr (out.results.map JValue.obj)) ∧
    ∀ d ∈ out.results, dictHasKey d "url" = true :=
  ⟨jsonLoads_dumps out.results, processRows_hasUrl llm rows cache out hwf hrun⟩

/-- C8 witness: the single example row processed on an empty cache. -/
theorem C8_json_round_trip_witness :
    cacheWF ([] : Cache) ∧
    processRows llmEmptyObj [] [some exUrl] = some c8out ∧
    (jsonLoads (jsonDumps c8out.results) = some (JValue.arr (c8out.results.map JValue.obj)) ∧
      ∀ d ∈ c8out.results, dictHasKey d "url" = true) :=
  ⟨fun p hp => absurd hp (List.not_mem_nil p), rfl,
    C8_json_round_trip llmEmptyObj [] [some exUrl] c8out
      (fun p hp => absurd hp (List.not_mem_nil p)) rfl⟩
